import Mathlib

/-!
Verification development for the `ncjoin` trajectory-joining program.

The program stitches an ordered list of per-segment trajectory files into a
single trajectory: for each adjacent pair of segments it searches for the
frame offset at which the second segment continues the first (comparing a
per-frame test quantity within a tolerance), derives a corrected timeline
across all segments, optionally resamples frames to a uniform time interval,
and copies frame data (reordering particle rows by persistent identifier)
into the output.

The definitions below are a shallow embedding of the program.  Real numbers
of the program are modelled as rationals; numpy values that may be either a
scalar or a 1-d vector (the tolerance, and the running residual extrema) are
modelled by the type `NVal`, with the numpy broadcasting rules spelled out
for the shapes the program actually uses.
-/

deriving instance DecidableEq for Except

/-- A numpy value that is either a scalar or a 1-dimensional vector
(used for `test_tol`, `maxdiff`, `min_maxdiff`, `max_maxdiff`). -/
inductive NVal : Type
  | s (x : ℚ)
  | v (xs : List ℚ)
deriving DecidableEq, Repr

namespace NVal

/-- Does the value have scalar shape (`test_tol.shape == ()` in the code)? -/
def isScalar : NVal → Bool
  | .s _ => true
  | .v _ => false

/-- Broadcast `np.any(a > b)`. -/
def anyGt : NVal → NVal → Bool
  | .s a, .s b => a > b
  | .s a, .v bs => bs.any (fun b => a > b)
  | .v as, .s b => as.any (fun a => a > b)
  | .v as, .v bs => (as.zip bs).any (fun p => p.1 > p.2)

/-- Broadcast `np.maximum`. -/
def nmax : NVal → NVal → NVal
  | .s a, .s b => .s (max a b)
  | .s a, .v bs => .v (bs.map (fun b => max a b))
  | .v as, .s b => .v (as.map (fun a => max a b))
  | .v as, .v bs => .v ((as.zip bs).map (fun p => max p.1 p.2))

/-- Broadcast `np.minimum`. -/
def nmin : NVal → NVal → NVal
  | .s a, .s b => .s (min a b)
  | .s a, .v bs => .v (bs.map (fun b => min a b))
  | .v as, .s b => .v (as.map (fun a => min a b))
  | .v as, .v bs => .v ((as.zip bs).map (fun p => min p.1 p.2))

/-- Add a scalar constant to every element (`test_tol + c`). -/
def addC (c : ℚ) : NVal → NVal
  | .s x => .s (x + c)
  | .v xs => .v (xs.map (fun x => x + c))

/-- Shape-preserving zero (`np.zeros_like(test_tol)`). -/
def zerosLike : NVal → NVal
  | .s _ => .s 0
  | .v xs => .v (xs.map (fun _ => 0))

end NVal

/-- Maximum of a list of rationals (`np.max` over a nonempty array;
the result on an empty list is an arbitrary default `0`). -/
def maxQ : List ℚ → ℚ
  | [] => 0
  | a :: as => as.foldl max a

/-- Collapse a value with `np.max` (reduces a vector to its scalar maximum;
a scalar stays itself). -/
def NVal.reduceMax : NVal → NVal
  | .s x => .s x
  | .v xs => .s (maxQ xs)

/-- One frame of the test variable: the per-frame numeric array. -/
abbrev Frame := List ℚ

/-- Elementwise `np.abs(a - b)` of two frames (a vector-shaped value). -/
def absDiff (a b : Frame) : NVal :=
  .v (List.zipWith (fun x y => |x - y|) a b)

/-- Python/numpy indexing into a list of frames: a negative index wraps
around from the end (`xs[-1]` is the last element). -/
def pyGetF (xs : List Frame) (i : ℤ) : Frame :=
  if i < 0 then xs.getD (xs.length - (-i).toNat) [] else xs.getD i.toNat []

/-- Python slice `xs[a:b]`. -/
def pySlice (xs : List ℚ) (a b : ℕ) : List ℚ :=
  (xs.take b).drop a

/-- Python negative indexing `xs[-k]` into a list of rationals
(default `0` out of range). -/
def pyNeg (xs : List ℚ) (k : ℕ) : ℚ :=
  xs.getD (xs.length - k) 0

/-- One input segment: its (possibly `+`-prefixed) file name, the per-frame
test-variable data, and its declared per-frame time values (`none` when the
file has no time variable). -/
structure Segment : Type where
  name : String
  test : List Frame
  time : Option (List ℚ)
deriving DecidableEq, Repr

/-- A segment is "trusted" when its file name starts with `+`
(`fn2[0] == '+'` in the code): the overlap search is skipped for it. -/
def isTrusted (fn : String) : Bool :=
  fn.data.headD ' ' = '+'

/-- The time array used for a segment: its declared time variable, or
consecutive frame numbers `np.arange(shape[0])` when absent. -/
def arangeQ (n : ℕ) : List ℚ :=
  (List.range n).map (fun i => (i : ℚ))

/-- Time array of a segment (lines 158-161 / 183-186 of the source). -/
def timeArr (seg : Segment) : List ℚ :=
  seg.time.getD (arangeQ seg.test.length)

/-- The timestamp-artifact correction (`fix_time`, lines 72-76): if the first
three values are not evenly spaced (gap mismatch above `1e-3`), value 0 is
recomputed as `time[1] - (time[2] - time[1])`. -/
def fix_time (t : List ℚ) : List ℚ :=
  match t with
  | t0 :: t1 :: t2 :: rest =>
    if |t2 - t1 - (t1 - t0)| > 1/1000 then (t1 - (t2 - t1)) :: t1 :: t2 :: rest else t
  | _ => t

/-- The inner backward scan over segment A (lines 135-144).  The argument
`lp` encodes the current python variable `last1` as `lp = last1 + 1`, so that
`lp = 0` is the exhausted state `last1 = -1`.  The loop body records the
current `maxdiff` into the running extrema, decrements `last1`, and
recomputes `maxdiff` — collapsed by `np.max` to a scalar (line 142 of the
source applies `np.max` unconditionally, also for a vector tolerance; the
subsequent scalar-shape test of lines 143-144 is then a no-op). -/
def innerScan (test1 : List Frame) (b : Frame) (tol : NVal) :
    ℕ → NVal → NVal → NVal → ℤ × NVal × NVal × NVal
  | 0, md, mn, mx => (-1, md, mn, mx)
  | lp + 1, md, mn, mx =>
    if md.anyGt tol then
      innerScan test1 b tol lp
        (NVal.reduceMax (absDiff (pyGetF test1 ((lp : ℤ) - 1)) b))
        (NVal.nmin md mn) (NVal.nmax md mx)
    else ((lp : ℤ), md, mn, mx)

/-- The outer candidate loop over the first frames of segment B
(lines 126-146).  `first2` runs from `-1` upward while
`first2 < min(len(test2) - 1, 5)` and the last comparison exceeded the
tolerance; each iteration compares B's candidate frame against A's last
frame and then runs the backward scan.  `fuel` is a structural bound on the
number of iterations (the loop runs at most `min(len(test2), 6) + 1`
times). -/
def outerScan (test1 test2 : List Frame) (tol : NVal) :
    ℕ → ℤ → NVal → ℤ → NVal → NVal → ℤ × ℤ × NVal × NVal
  | 0, first2, _, last1, mn, mx => (first2, last1, mn, mx)
  | fuel + 1, first2, md, last1, mn, mx =>
    if first2 < min ((test2.length : ℤ) - 1) 5 ∧ md.anyGt tol then
      let f2 := first2 + 1
      let b := pyGetF test2 f2
      let md0 := absDiff (pyGetF test1 ((test1.length : ℤ) - 1)) b
      let md1 := if tol.isScalar then md0.reduceMax else md0
      let r := innerScan test1 b tol test1.length md1 mn mx
      outerScan test1 test2 tol fuel f2 r.2.1 r.1
        (NVal.nmin r.2.1 r.2.2.1) (NVal.nmax r.2.1 r.2.2.2)
    else (first2, last1, mn, mx)

/-- Result of the overlap determination for one adjacent pair: the matched
`first2` and `last1` (or `last1 = -1` on failure) together with the running
minimum and maximum residuals. -/
structure OverlapOut : Type where
  first2 : ℤ
  last1 : ℤ
  minRes : NVal
  maxRes : NVal
deriving DecidableEq, Repr

/-- The full overlap search for one pair (lines 124-146), starting from
`first2 = -1` with `maxdiff = test_tol + 1.0`,
`min_maxdiff = test_tol + 1e12` and `max_maxdiff = np.zeros_like(test_tol)`.
A fuel of 8 strictly exceeds the at most 7 loop entries. -/
def searchOverlap (test1 test2 : List Frame) (tol : NVal) : OverlapOut :=
  let r := outerScan test1 test2 tol 8 (-1) (tol.addC 1) 0
    (tol.addC (10 ^ 12)) tol.zerosLike
  ⟨r.1, r.2.1, r.2.2.1, r.2.2.2⟩

/-- Overlap determination for a pair including the trusted-segment shortcut
(lines 107-146): if segment B's name carries the `+` marker the search is
skipped and `first2 = 0`, `last1 = len(test1)` are used, with the residual
extrema left at their initial values. -/
def findOverlap (seg1 seg2 : Segment) (tol : NVal) : OverlapOut :=
  if isTrusted seg2.name then
    ⟨0, (seg1.test.length : ℤ), tol.addC (10 ^ 12), tol.zerosLike⟩
  else
    searchOverlap seg1.test seg2.test tol

/-- The Inconsistent-Segment-Order error raised at lines 150-154: it names
the two files and carries the minimum and maximum residuals observed. -/
structure JoinErr : Type where
  fn1 : String
  fn2 : String
  minRes : NVal
  maxRes : NVal
deriving DecidableEq, Repr

/-- Sequencer state threaded through the pair loop: the corrected last time
of the previous segment (`last_time`, `none` before the first pair) and the
start index for the current segment (`first1`). -/
structure SeqState : Type where
  lastTime : Option ℚ
  first1 : ℕ
deriving DecidableEq, Repr

/-- One per-segment output record of `open_trajs` (a tuple
`(filename, dataset, data_slice, time)` in the source; the dataset handle is
not modelled). -/
structure SegRecord : Type where
  name : String
  start : ℕ
  stop : ℕ
  time : List ℚ
deriving DecidableEq, Repr

instance : Inhabited SegRecord := ⟨⟨"", 0, 0, []⟩⟩

/-- Offset application (lines 168-171 / 192-195): when a previous segment
exists, shift the whole time array by `last_time - time[0]`. -/
def applyOffset : Option ℚ → List ℚ → List ℚ
  | none, t => t
  | some lt, t => t.map (fun x => x + (lt - t.headD 0))

/-- Processing of one non-final segment of the pair loop
(lines 102-181): find the overlap with the next segment, fail when the
backward scan exhausted A (`last1 < 0`), otherwise slice this segment's time
array to `[first1:last1]`, fix it, offset it to continue from `last_time`,
and compute the next state's `last_time` (with the extrapolation branch of
lines 175-176 when `last1 >= len(time1)`) and `first1 = first2`. -/
def stepMiddle (tol : NVal) (st : SeqState) (seg1 seg2 : Segment) :
    Except JoinErr (SegRecord × SeqState) :=
  let o := findOverlap seg1 seg2 tol
  if o.last1 < 0 then
    .error ⟨seg1.name, seg2.name, o.minRes, o.maxRes⟩
  else
    let last1 := o.last1.toNat
    let time1 := timeArr seg1
    let time := applyOffset st.lastTime (fix_time (pySlice time1 st.first1 last1))
    let lt' :=
      if (time1.length : ℤ) ≤ o.last1 then
        pyNeg time 1 + (pyNeg time 2 - pyNeg time1 1) * (((time1.length : ℤ) - o.last1 + 1 : ℤ) : ℚ)
      else
        pyNeg time 1
    .ok (⟨seg1.name, st.first1, last1, time⟩, ⟨some lt', o.first2.toNat⟩)

/-- Processing of the final segment (lines 183-196): its full time array is
fixed, offset to continue from `last_time`, and recorded with the slice
`[first1:len(time)]`. -/
def stepFinal (st : SeqState) (seg : Segment) : SegRecord :=
  let time := applyOffset st.lastTime (fix_time (timeArr seg))
  ⟨seg.name, st.first1, time.length, time⟩

/-- The pair loop of `open_trajs` as a recursion over the segment list. -/
def openTrajsAux (tol : NVal) : SeqState → Segment → List Segment →
    Except JoinErr (List SegRecord)
  | st, seg, [] => .ok [stepFinal st seg]
  | st, seg1, seg2 :: rest =>
    match stepMiddle tol st seg1 seg2 with
    | .error e => .error e
    | .ok (rec, st') =>
      match openTrajsAux tol st' seg2 rest with
      | .error e => .error e
      | .ok recs => .ok (rec :: recs)

/-- `open_trajs` (lines 79-198) for the default configuration in which the
test variable differs from the time variable and carries no element
restriction: check that the segments are in order, remove overlap, and
return the per-segment records with corrected time arrays. -/
def open_trajs (tol : NVal) : List Segment → Except JoinErr (List SegRecord)
  | [] => .ok []
  | s :: rest => openTrajsAux tol ⟨none, 0⟩ s rest

/-- The corrected timeline of a successful run: the concatenation of the
per-segment corrected time arrays (this is exactly what the copy loop writes
into the output `time` variable, one entry per written frame). -/
def timelineOf : Except JoinErr (List SegRecord) → List ℚ
  | .error _ => []
  | .ok recs => (recs.map SegRecord.time).flatten

/-- Python `int(q)`: truncation toward zero. -/
def pyInt (q : ℚ) : ℤ :=
  if q < 0 then -((-q).floor) else q.floor

/-- Minimum of a list of rationals (`np.min` over a nonempty array). -/
def minimumQ : List ℚ → ℚ
  | [] => 0
  | a :: as => as.foldl min a

/-- Maximum of a list of rationals (`np.max` over a nonempty array). -/
def maximumQ : List ℚ → ℚ
  | [] => 0
  | a :: as => as.foldl max a

/-- First index of the minimum of a list (`np.argmin`): ties resolve to the
earliest index. -/
def argminIdx : List ℚ → ℕ
  | [] => 0
  | [_] => 0
  | x :: y :: rest =>
    let j := argminIdx (y :: rest)
    if (y :: rest).getD j 0 < x then j + 1 else 0

/-- The per-slot distance array `np.abs(time - target)`. -/
def dists (time : List ℚ) (target : ℚ) : List ℚ :=
  time.map (fun x => |x - target|)

/-- The slot loop of `get_nearest_indices` (lines 54-60): for each target
`i*every`, take the first nearest index `j`; append it when its distance is
strictly below `1.0` and it differs from the previously appended index. -/
def gniLoop (time : List ℚ) (every : ℚ) :
    ℕ → ℤ → ℤ → List ℕ → List ℕ
  | 0, _, _, r => r
  | k + 1, i, lastj, r =>
    let diff := dists time ((i : ℚ) * every)
    let j := argminIdx diff
    if diff.getD j 0 < 1 ∧ (j : ℤ) ≠ lastj then
      gniLoop time every k (i + 1) (j : ℤ) (r ++ [j])
    else
      gniLoop time every k (i + 1) lastj r

/-- `get_nearest_indices` (lines 44-61): indices of the frames closest to
the evenly spaced targets `i*every` for `i` in
`range(int(min(time)/every), int(max(time)/every) + 1)`. -/
def get_nearest_indices (time : List ℚ) (every : ℚ) : List ℕ :=
  let n := pyInt (minimumQ time / every)
  let m := pyInt (maximumQ time / every) + 1
  gniLoop time every (m - n).toNat n (-1) []

/-- The exclude set (lines 315-317): it always contains the
persistent-identifier variable name, united with the user-supplied
comma-separated list when present. -/
def exclude_list (index : String) (exclude : Option String) : List String :=
  match exclude with
  | none => [index]
  | some e => index :: e.splitOn ","

/-- The variables actually processed by the schema-creation loop and the
copy loop: both loops skip exactly the members of the exclude set
(lines 336-338 and 363-365). -/
def processedVars (vars : List String) (index : String)
    (exclude : Option String) : List String :=
  vars.filter (fun v => !(exclude_list index exclude).contains v)

/-- One row of per-particle data within a frame. -/
abbrev Row := List ℚ

/-- `np.zeros_like(var_data)` for a list of rows. -/
def zerosLikeRows (rows : List Row) : List Row :=
  rows.map (fun r => r.map (fun _ => 0))

/-- Single numpy row assignment `acc[i] = v` with negative-index wrap. -/
def pySetRow (acc : List Row) (i : ℤ) (v : Row) : List Row :=
  if i < 0 then acc.set (acc.length - (-i).toNat) v else acc.set i.toNat v

/-- The writes performed by the fancy assignment
`sorted_var_data[index[iframe] + offset] = var_data`, row by row. -/
def writeRows (ids : List ℤ) (offset : ℤ) (rows : List Row) :
    List ℕ → List Row → List Row
  | [], acc => acc
  | i :: is, acc =>
    writeRows ids offset rows is (pySetRow acc (ids.getD i 0 + offset) (rows.getD i []))

/-- The particle-row reordering of one frame (lines 384-387): starting from
a zero array of the same shape, input row `i` is written to output row
`ids[i] + offset`. -/
def reorderRows (ids : List ℤ) (offset : ℤ) (rows : List Row) : List Row :=
  writeRows ids offset rows (List.range rows.length) (zerosLikeRows rows)

/-- The cursor accumulation of the copy loop (lines 322 and 401): the total
number of frames after processing all segments. -/
def copyRun : ℕ → List SegRecord → ℕ
  | c, [] => c
  | c, r :: rest => copyRun (c + r.time.length) rest

/-- The cursor value at the start of each segment of the copy loop (the
write offset at which that segment's frames are appended,
`odata.variables[...][cursor + oframe]`). -/
def copyTrace : ℕ → List SegRecord → List ℕ
  | _, [] => []
  | c, r :: rest => c :: copyTrace (c + r.time.length) rest

/-- The mismatch test for a per-file variable (line 396):
`np.any(last_data.variables[var][:] != var[:])` — elementwise inequality
anywhere in the two equally shaped arrays. -/
def perFileDiffers (prev cur : List ℚ) : Bool :=
  (prev.zip cur).any (fun p => p.1 ≠ p.2)

/-! ### Helper lemmas -/

theorem copyRun_eq (c : ℕ) (recs : List SegRecord) :
    copyRun c recs = c + (recs.map (fun r => r.time.length)).sum := by
  induction recs generalizing c with
  | nil => simp [copyRun]
  | cons r rest ih => simp [copyRun, ih]; omega

theorem copyTrace_getD (c : ℕ) (recs : List SegRecord) (k : ℕ)
    (hk : k < recs.length) :
    (copyTrace c recs).getD k 0 =
      c + ((recs.take k).map (fun r => r.time.length)).sum := by
  induction recs generalizing c k with
  | nil => simp at hk
  | cons r rest ih =>
    cases k with
    | zero => simp [copyTrace]
    | succ k =>
      have hk' : k < rest.length := by simpa using hk
      rw [copyTrace, List.getD_cons_succ, ih (c + r.time.length) k hk',
        List.take_succ_cons, List.map_cons, List.sum_cons]
      omega

theorem pySetRow_length (acc : List Row) (i : ℤ) (v : Row) :
    (pySetRow acc i v).length = acc.length := by
  unfold pySetRow
  split <;> simp

theorem writeRows_length (ids : List ℤ) (off : ℤ) (rows : List Row)
    (is : List ℕ) (acc : List Row) :
    (writeRows ids off rows is acc).length = acc.length := by
  induction is generalizing acc with
  | nil => rfl
  | cons i' is ih => rw [writeRows, ih, pySetRow_length]

theorem zerosLikeRows_length (rows : List Row) :
    (zerosLikeRows rows).length = rows.length := by
  simp [zerosLikeRows]

theorem pySetRow_getD_ne (acc : List Row) (i : ℤ) (v : Row) (t : ℕ)
    (h0 : 0 ≤ i) (hne : i ≠ (t : ℤ)) :
    (pySetRow acc i v).getD t [] = acc.getD t [] := by
  unfold pySetRow
  rw [if_neg (not_lt.mpr h0)]
  have : i.toNat ≠ t := fun hc => hne (by omega)
  simp [List.getD_eq_getElem?_getD, List.getElem?_set_ne this]

theorem writeRows_getD_untouched (ids : List ℤ) (off : ℤ) (rows : List Row)
    (is : List ℕ) (acc : List Row) (t : ℕ)
    (h0 : ∀ i' ∈ is, 0 ≤ ids.getD i' 0 + off)
    (hne : ∀ i' ∈ is, ids.getD i' 0 + off ≠ (t : ℤ)) :
    (writeRows ids off rows is acc).getD t [] = acc.getD t [] := by
  induction is generalizing acc with
  | nil => rfl
  | cons i' is ih =>
    rw [writeRows]
    rw [ih _ (fun j hj => h0 j (List.mem_cons_of_mem _ hj))
      (fun j hj => hne j (List.mem_cons_of_mem _ hj))]
    exact pySetRow_getD_ne _ _ _ _ (h0 i' (List.mem_cons_self _ _))
      (hne i' (List.mem_cons_self _ _))

theorem writeRows_getD_mem (ids : List ℤ) (off : ℤ) (rows : List Row)
    (is : List ℕ) (acc : List Row) (i : ℕ)
    (hacc : acc.length = rows.length)
    (hi : (ids.getD i 0 + off).toNat < rows.length)
    (h0 : ∀ j ∈ is, 0 ≤ ids.getD j 0 + off)
    (hinj : ∀ j ∈ is, j ≠ i → ids.getD j 0 + off ≠ ids.getD i 0 + off)
    (hnd : is.Nodup) (hmem : i ∈ is) :
    (writeRows ids off rows is acc).getD (ids.getD i 0 + off).toNat []
      = rows.getD i [] := by
  induction is generalizing acc with
  | nil => cases hmem
  | cons j is ih =>
    rw [writeRows]
    rcases List.mem_cons.mp hmem with hji | hmem'
    · subst hji
      have hji0 : 0 ≤ ids.getD i 0 + off := h0 i (List.mem_cons_self _ _)
      rw [writeRows_getD_untouched _ _ _ _ _ _
        (fun j' hj' => h0 j' (List.mem_cons_of_mem _ hj'))
        (fun j' hj' => by
          have hne : j' ≠ i := fun hc => (List.nodup_cons.mp hnd).1 (hc ▸ hj')
          have := hinj j' (List.mem_cons_of_mem _ hj') hne
          omega)]
      unfold pySetRow
      rw [if_neg (not_lt.mpr hji0)]
      have hlt : (ids.getD i 0 + off).toNat < acc.length := hacc ▸ hi
      rw [List.getD_eq_getElem?_getD, List.getElem?_set_self hlt, Option.getD_some]
    · have hji : j ≠ i := fun hc => (List.nodup_cons.mp hnd).1 (hc ▸ hmem')
      rw [ih _ (by rw [pySetRow_length]; exact hacc)
        (fun j' hj' => h0 j' (List.mem_cons_of_mem _ hj'))
        (fun j' hj' hne => hinj j' (List.mem_cons_of_mem _ hj') hne)
        (List.nodup_cons.mp hnd).2 hmem']

/-! ### The failed-search analysis for the Inconsistent-Segment-Order error -/

/-- The scalar residual of comparing frame `i` of segment A against a fixed
frame `b` of segment B: `np.max(np.abs(test1[i] - b))`. -/
def frameRes (test1 : List Frame) (b : Frame) (i : ℕ) : ℚ :=
  maxQ (List.zipWith (fun x y => |x - y|) (test1.getD i []) b)

/-- The scalar residual of the candidate pair `(last1, first2) = (i, j)`. -/
def resid (test1 test2 : List Frame) (i j : ℕ) : ℚ :=
  frameRes test1 (test2.getD j []) i

/-- Fold of `min (f k)` over `k = n-1, .., 0` into `a`, in the order the
backward scan records residuals. -/
def foldScanMin (f : ℕ → ℚ) : ℕ → ℚ → ℚ
  | 0, a => a
  | k + 1, a => foldScanMin f k (min (f k) a)

/-- Fold of `max (f k)` over `k = n-1, .., 0` into `a`. -/
def foldScanMax (f : ℕ → ℚ) : ℕ → ℚ → ℚ
  | 0, a => a
  | k + 1, a => foldScanMax f k (max (f k) a)

/-- The running minimum residual accumulated over `count` candidate frames
of B starting at candidate `j`, when every backward scan runs to
exhaustion. -/
def candsMin (test1 test2 : List Frame) : ℕ → ℕ → ℚ → ℚ
  | _, 0, a => a
  | j, k + 1, a =>
    candsMin test1 test2 (j + 1) k
      (min (resid test1 test2 (test1.length - 1) j)
        (foldScanMin (frameRes test1 (test2.getD j [])) test1.length a))

/-- The running maximum residual accumulated over `count` candidate frames
of B starting at candidate `j`. -/
def candsMax (test1 test2 : List Frame) : ℕ → ℕ → ℚ → ℚ
  | _, 0, a => a
  | j, k + 1, a =>
    candsMax test1 test2 (j + 1) k
      (max (resid test1 test2 (test1.length - 1) j)
        (foldScanMax (frameRes test1 (test2.getD j [])) test1.length a))

theorem pyGetF_neg_one (xs : List Frame) :
    pyGetF xs (((0 : ℕ) : ℤ) - 1) = xs.getD (xs.length - 1) [] := by
  unfold pyGetF
  norm_num

theorem pyGetF_succ_sub_one (xs : List Frame) (k : ℕ) :
    pyGetF xs (((k + 1 : ℕ) : ℤ) - 1) = xs.getD k [] := by
  unfold pyGetF
  rw [if_neg (by push_cast; omega)]
  congr 1
  omega

theorem reduceMax_absDiff (a b : Frame) :
    NVal.reduceMax (absDiff a b) =
      .s (maxQ (List.zipWith (fun x y => |x - y|) a b)) := rfl

theorem innerScan_exhausts (test1 : List Frame) (b : Frame) (t : ℚ)
    (hall : ∀ i, i < test1.length → t < frameRes test1 b i) :
    ∀ lp, 1 ≤ lp → lp ≤ test1.length → ∀ mn mx : ℚ,
      innerScan test1 b (.s t) lp (.s (frameRes test1 b (lp - 1))) (.s mn) (.s mx)
        = (-1, .s (frameRes test1 b (test1.length - 1)),
           .s (foldScanMin (frameRes test1 b) lp mn),
           .s (foldScanMax (frameRes test1 b) lp mx)) := by
  intro lp
  induction lp with
  | zero => omega
  | succ k ih =>
    intro h1 hle mn mx
    have hk : k < test1.length := by omega
    simp only [Nat.add_sub_cancel]
    simp only [innerScan]
    have hgt : NVal.anyGt (.s (frameRes test1 b k)) (.s t) = true := by
      simp only [NVal.anyGt, gt_iff_lt, decide_eq_true_eq]
      exact hall k hk
    rw [if_pos hgt]
    simp only [NVal.nmin, NVal.nmax]
    cases k with
    | zero =>
      simp only [innerScan, foldScanMin, foldScanMax]
      rw [pyGetF_neg_one, reduceMax_absDiff]
      rfl
    | succ j =>
      rw [pyGetF_succ_sub_one, reduceMax_absDiff]
      have ihj := ih (by omega) (by omega) (min (frameRes test1 b (j + 1)) mn)
        (max (frameRes test1 b (j + 1)) mx)
      simp only [Nat.add_sub_cancel] at ihj
      rw [show (NVal.s (maxQ (List.zipWith (fun x y => |x - y|) (test1.getD j []) b)))
            = NVal.s (frameRes test1 b j) from rfl]
      rw [ihj]
      simp only [foldScanMin, foldScanMax]

theorem pyGetF_natCast (xs : List Frame) (j : ℕ) :
    pyGetF xs ((j : ℕ) : ℤ) = xs.getD j [] := by
  unfold pyGetF
  rw [if_neg (by omega)]
  simp

theorem pyGetF_len_sub_one (xs : List Frame) (h : 1 ≤ xs.length) :
    pyGetF xs ((xs.length : ℤ) - 1) = xs.getD (xs.length - 1) [] := by
  unfold pyGetF
  rw [if_neg (by omega)]
  congr 1
  omega

theorem outerScan_exhausts (test1 test2 : List Frame) (t : ℚ)
    (h1 : 1 ≤ test1.length) (h2 : 1 ≤ test2.length)
    (hall : ∀ j, j < min test2.length 6 → ∀ i, i < test1.length →
      t < resid test1 test2 i j) :
    ∀ k, k ≤ min test2.length 6 → ∀ fuel, k + 1 ≤ fuel → ∀ l0 : ℤ,
    ∀ md mn mx : ℚ, t < md →
      outerScan test1 test2 (.s t) fuel
          (((min test2.length 6 - k : ℕ) : ℤ) - 1) (.s md) l0 (.s mn) (.s mx)
        = (((min test2.length 6 : ℕ) : ℤ) - 1, if k = 0 then l0 else -1,
           .s (candsMin test1 test2 (min test2.length 6 - k) k mn),
           .s (candsMax test1 test2 (min test2.length 6 - k) k mx)) := by
  have hBeq : min ((test2.length : ℤ) - 1) 5 = ((min test2.length 6 : ℕ) : ℤ) - 1 := by
    have hmin : ((min test2.length 6 : ℕ) : ℤ) = min (test2.length : ℤ) 6 := by
      push_cast
      rfl
    omega
  intro k
  induction k with
  | zero =>
    intro _ fuel hfuel l0 md mn mx hmd
    cases fuel with
    | zero => omega
    | succ f =>
      simp only [outerScan, Nat.sub_zero]
      rw [if_neg (by rw [hBeq]; omega)]
      simp [candsMin, candsMax]
  | succ k ih =>
    intro hkC fuel hfuel l0 md mn mx hmd
    cases fuel with
    | zero => omega
    | succ f =>
      simp only [outerScan]
      rw [if_pos]
      · have hsub : ((min test2.length 6 - (k + 1) : ℕ) : ℤ) - 1 + 1
            = ((min test2.length 6 - (k + 1) : ℕ) : ℤ) := by ring
        rw [hsub, pyGetF_natCast, pyGetF_len_sub_one test1 h1]
        simp only [NVal.isScalar, if_true, reduceMax_absDiff]
        have hallj : ∀ i, i < test1.length →
            t < frameRes test1 (test2.getD (min test2.length 6 - (k + 1)) []) i :=
          fun i hi => hall (min test2.length 6 - (k + 1)) (by omega) i hi
        have hinner := innerScan_exhausts test1
          (test2.getD (min test2.length 6 - (k + 1)) []) t hallj test1.length h1
          le_rfl mn mx
        rw [show NVal.s (maxQ (List.zipWith (fun x y => |x - y|)
              (test1.getD (test1.length - 1) [])
              (test2.getD (min test2.length 6 - (k + 1)) [])))
            = NVal.s (frameRes test1
                (test2.getD (min test2.length 6 - (k + 1)) [])
                (test1.length - 1)) from rfl]
        rw [hinner]
        simp only [NVal.nmin, NVal.nmax]
        have hcast : ((min test2.length 6 - (k + 1) : ℕ) : ℤ)
            = ((min test2.length 6 - k : ℕ) : ℤ) - 1 := by omega
        rw [hcast]
        have ihk := ih (by omega) f (by omega) (-1)
          (frameRes test1 (test2.getD (min test2.length 6 - (k + 1)) [])
            (test1.length - 1))
          (min (frameRes test1 (test2.getD (min test2.length 6 - (k + 1)) [])
              (test1.length - 1))
            (foldScanMin (frameRes test1
              (test2.getD (min test2.length 6 - (k + 1)) [])) test1.length mn))
          (max (frameRes test1 (test2.getD (min test2.length 6 - (k + 1)) [])
              (test1.length - 1))
            (foldScanMax (frameRes test1
              (test2.getD (min test2.length 6 - (k + 1)) [])) test1.length mx))
          (hallj (test1.length - 1) (by omega))
        rw [ihk]
        have hif : (if k = 0 then (-1 : ℤ) else -1) = -1 := by
          split <;> rfl
        rw [hif, if_neg (Nat.succ_ne_zero k)]
        have hidx : min test2.length 6 - k = min test2.length 6 - (k + 1) + 1 := by
          omega
        rw [hidx]
        simp only [candsMin, candsMax]
        rfl
      · constructor
        · rw [hBeq]
          have : min test2.length 6 - (k + 1) < min test2.length 6 := by omega
          omega
        · simp only [NVal.anyGt, gt_iff_lt, decide_eq_true_eq]
          exact hmd

theorem foldScanMin_le_init (f : ℕ → ℚ) (n : ℕ) (a : ℚ) :
    foldScanMin f n a ≤ a := by
  induction n generalizing a with
  | zero => exact le_rfl
  | succ k ih => exact le_trans (ih (min (f k) a)) (min_le_right _ _)

theorem foldScanMin_le (f : ℕ → ℚ) (n : ℕ) (a : ℚ) (i : ℕ) (hi : i < n) :
    foldScanMin f n a ≤ f i := by
  induction n generalizing a with
  | zero => omega
  | succ k ih =>
    rcases Nat.lt_succ_iff_lt_or_eq.mp hi with h | h
    · exact ih _ h
    · subst h
      exact le_trans (foldScanMin_le_init f i _) (min_le_left _ _)

theorem foldScanMin_cases (f : ℕ → ℚ) (n : ℕ) (a : ℚ) :
    foldScanMin f n a = a ∨ ∃ i, i < n ∧ foldScanMin f n a = f i := by
  induction n generalizing a with
  | zero => exact Or.inl rfl
  | succ k ih =>
    rcases ih (min (f k) a) with h | ⟨i, hi, h⟩
    · rcases le_total (f k) a with hle | hle
      · exact Or.inr ⟨k, Nat.lt_succ_self k, by rw [foldScanMin, h, min_eq_left hle]⟩
      · exact Or.inl (by rw [foldScanMin, h, min_eq_right hle])
    · exact Or.inr ⟨i, Nat.lt_succ_of_lt hi, by rw [foldScanMin, h]⟩

theorem foldScanMax_ge_init (f : ℕ → ℚ) (n : ℕ) (a : ℚ) :
    a ≤ foldScanMax f n a := by
  induction n generalizing a with
  | zero => exact le_rfl
  | succ k ih => exact le_trans (le_max_right _ _) (ih (max (f k) a))

theorem foldScanMax_ge (f : ℕ → ℚ) (n : ℕ) (a : ℚ) (i : ℕ) (hi : i < n) :
    f i ≤ foldScanMax f n a := by
  induction n generalizing a with
  | zero => omega
  | succ k ih =>
    rcases Nat.lt_succ_iff_lt_or_eq.mp hi with h | h
    · exact ih _ h
    · subst h
      exact le_trans (le_max_left _ _) (foldScanMax_ge_init f i _)

theorem foldScanMax_cases (f : ℕ → ℚ) (n : ℕ) (a : ℚ) :
    foldScanMax f n a = a ∨ ∃ i, i < n ∧ foldScanMax f n a = f i := by
  induction n generalizing a with
  | zero => exact Or.inl rfl
  | succ k ih =>
    rcases ih (max (f k) a) with h | ⟨i, hi, h⟩
    · rcases le_total (f k) a with hle | hle
      · exact Or.inl (by rw [foldScanMax, h, max_eq_right hle])
      · exact Or.inr ⟨k, Nat.lt_succ_self k, by rw [foldScanMax, h, max_eq_left hle]⟩
    · exact Or.inr ⟨i, Nat.lt_succ_of_lt hi, by rw [foldScanMax, h]⟩

theorem candsMin_le_init (test1 test2 : List Frame) (k j : ℕ) (a : ℚ) :
    candsMin test1 test2 j k a ≤ a := by
  induction k generalizing j a with
  | zero => exact le_rfl
  | succ n ih =>
    exact le_trans (ih (j + 1) _)
      (le_trans (min_le_right _ _) (foldScanMin_le_init _ _ _))

theorem candsMin_le (test1 test2 : List Frame) (k : ℕ) :
    ∀ j a, ∀ j2, j ≤ j2 → j2 < j + k → ∀ i, i < test1.length →
      candsMin test1 test2 j k a ≤ resid test1 test2 i j2 := by
  induction k with
  | zero => omega
  | succ n ih =>
    intro j a j2 hj1 hj2 i hi
    rcases Nat.eq_or_lt_of_le hj1 with h | h
    · subst h
      rw [candsMin]
      refine le_trans (candsMin_le_init _ _ _ _ _)
        (le_trans (min_le_right _ _) (foldScanMin_le _ _ _ i hi))
    · exact ih (j + 1) _ j2 h (by omega) i hi

theorem candsMin_cases (test1 test2 : List Frame) (h1 : 1 ≤ test1.length)
    (k : ℕ) :
    ∀ j a, candsMin test1 test2 j k a = a ∨
      ∃ j2 i, j ≤ j2 ∧ j2 < j + k ∧ i < test1.length ∧
        candsMin test1 test2 j k a = resid test1 test2 i j2 := by
  induction k with
  | zero => exact fun j a => Or.inl rfl
  | succ n ih =>
    intro j a
    rw [candsMin]
    rcases ih (j + 1)
        (min (resid test1 test2 (test1.length - 1) j)
          (foldScanMin (frameRes test1 (test2.getD j [])) test1.length a)) with
      h | ⟨j2, i, hle, hlt, hi, h⟩
    · rw [h]
      rcases le_total (resid test1 test2 (test1.length - 1) j)
          (foldScanMin (frameRes test1 (test2.getD j [])) test1.length a) with
        hc | hc
      · exact Or.inr ⟨j, test1.length - 1, le_rfl, by omega, by omega,
          min_eq_left hc⟩
      · rw [min_eq_right hc]
        rcases foldScanMin_cases (frameRes test1 (test2.getD j []))
            test1.length a with h2 | ⟨i, hi, h2⟩
        · exact Or.inl h2
        · exact Or.inr ⟨j, i, le_rfl, by omega, hi, h2⟩
    · exact Or.inr ⟨j2, i, by omega, by omega, hi, h⟩

theorem candsMax_ge_init (test1 test2 : List Frame) (k j : ℕ) (a : ℚ) :
    a ≤ candsMax test1 test2 j k a := by
  induction k generalizing j a with
  | zero => exact le_rfl
  | succ n ih =>
    exact le_trans (le_trans (foldScanMax_ge_init _ _ _) (le_max_right _ _))
      (ih (j + 1) _)

theorem candsMax_ge (test1 test2 : List Frame) (k : ℕ) :
    ∀ j a, ∀ j2, j ≤ j2 → j2 < j + k → ∀ i, i < test1.length →
      resid test1 test2 i j2 ≤ candsMax test1 test2 j k a := by
  induction k with
  | zero => omega
  | succ n ih =>
    intro j a j2 hj1 hj2 i hi
    rcases Nat.eq_or_lt_of_le hj1 with h | h
    · subst h
      rw [candsMax]
      refine le_trans (le_trans (foldScanMax_ge _ _ _ i hi) (le_max_right _ _))
        (candsMax_ge_init _ _ _ _ _)
    · exact ih (j + 1) _ j2 h (by omega) i hi

theorem candsMax_cases (test1 test2 : List Frame) (h1 : 1 ≤ test1.length)
    (k : ℕ) :
    ∀ j a, candsMax test1 test2 j k a = a ∨
      ∃ j2 i, j ≤ j2 ∧ j2 < j + k ∧ i < test1.length ∧
        candsMax test1 test2 j k a = resid test1 test2 i j2 := by
  induction k with
  | zero => exact fun j a => Or.inl rfl
  | succ n ih =>
    intro j a
    rw [candsMax]
    rcases ih (j + 1)
        (max (resid test1 test2 (test1.length - 1) j)
          (foldScanMax (frameRes test1 (test2.getD j [])) test1.length a)) with
      h | ⟨j2, i, hle, hlt, hi, h⟩
    · rw [h]
      rcases le_total (resid test1 test2 (test1.length - 1) j)
          (foldScanMax (frameRes test1 (test2.getD j [])) test1.length a) with
        hc | hc
      · rw [max_eq_right hc]
        rcases foldScanMax_cases (frameRes test1 (test2.getD j []))
            test1.length a with h2 | ⟨i, hi, h2⟩
        · exact Or.inl h2
        · exact Or.inr ⟨j, i, le_rfl, by omega, hi, h2⟩
      · exact Or.inr ⟨j, test1.length - 1, le_rfl, by omega, by omega,
          max_eq_left hc⟩
    · exact Or.inr ⟨j2, i, by omega, by omega, hi, h⟩

/-! ### Properties of the first-nearest-index selection -/

theorem argminIdx_spec (xs : List ℚ) (h : xs ≠ []) :
    argminIdx xs < xs.length ∧
    (∀ k, k < xs.length → xs.getD (argminIdx xs) 0 ≤ xs.getD k 0) ∧
    (∀ k, k < argminIdx xs → xs.getD (argminIdx xs) 0 < xs.getD k 0) := by
  induction xs with
  | nil => exact absurd rfl h
  | cons x tail ih =>
    cases tail with
    | nil =>
      refine ⟨by simp [argminIdx], ?_, ?_⟩
      · intro k hk
        have : k = 0 := by simpa using hk
        subst this
        exact le_rfl
      · intro k hk
        simp [argminIdx] at hk
    | cons y rest =>
      obtain ⟨ihlt, ihmin, ihfirst⟩ := ih (List.cons_ne_nil y rest)
      by_cases hc : (y :: rest).getD (argminIdx (y :: rest)) 0 < x
      · have harg : argminIdx (x :: y :: rest) = argminIdx (y :: rest) + 1 := by
          simp only [argminIdx]
          rw [if_pos hc]
        rw [harg]
        refine ⟨by simpa using ihlt, ?_, ?_⟩
        · intro k hk
          cases k with
          | zero => simpa using hc.le
          | succ k =>
            rw [List.getD_cons_succ, List.getD_cons_succ]
            exact ihmin k (by simpa using hk)
        · intro k hk
          cases k with
          | zero => simpa using hc
          | succ k =>
            rw [List.getD_cons_succ, List.getD_cons_succ]
            exact ihfirst k (by omega)
      · have harg : argminIdx (x :: y :: rest) = 0 := by
          simp only [argminIdx]
          rw [if_neg hc]
        rw [harg]
        refine ⟨by simp, ?_, ?_⟩
        · intro k hk
          cases k with
          | zero => exact le_rfl
          | succ k =>
            rw [List.getD_cons_zero, List.getD_cons_succ]
            exact le_trans (not_lt.mp hc) (ihmin k (by simpa using hk))
        · intro k hk
          omega
  
theorem argminIdx_eq_of (xs : List ℚ) (j : ℕ) (hj : j < xs.length)
    (hmin : ∀ k, k < xs.length → xs.getD j 0 ≤ xs.getD k 0)
    (hfirst : ∀ k, k < j → xs.getD j 0 < xs.getD k 0) :
    argminIdx xs = j := by
  have hne : xs ≠ [] := by
    intro h
    rw [h] at hj
    simp at hj
  obtain ⟨hlt, hmin2, hfirst2⟩ := argminIdx_spec xs hne
  rcases lt_trichotomy (argminIdx xs) j with h | h | h
  · exact absurd (lt_of_lt_of_le (hfirst _ h) (hmin2 j hj)) (lt_irrefl _)
  · exact h
  · exact absurd (lt_of_lt_of_le (hfirst2 _ h) (hmin _ hlt)) (lt_irrefl _)

theorem abs_le_abs_iff_sq (a b : ℚ) : |a| ≤ |b| ↔ a ^ 2 ≤ b ^ 2 := by
  rw [← sq_abs a, ← sq_abs b]
  constructor
  · intro h
    exact pow_le_pow_left₀ (abs_nonneg a) h 2
  · intro h
    nlinarith [abs_nonneg a, abs_nonneg b]

theorem abs_lt_abs_iff_sq (a b : ℚ) : |a| < |b| ↔ a ^ 2 < b ^ 2 := by
  rw [← not_le, ← not_le, abs_le_abs_iff_sq]

theorem abs_dist_convex (x y t1 t2 t3 : ℚ) (h12 : t1 ≤ t2) (h23 : t2 ≤ t3)
    (ha : |x - t1| ≤ |y - t1|) (hc : |x - t3| ≤ |y - t3|) :
    |x - t2| ≤ |y - t2| := by
  rw [abs_le_abs_iff_sq] at ha hc ⊢
  rcases le_total x y with hxy | hxy
  · nlinarith [mul_nonneg (sub_nonneg.mpr hxy) (sub_nonneg.mpr h23)]
  · nlinarith [mul_nonneg (sub_nonneg.mpr hxy) (sub_nonneg.mpr h12)]

theorem abs_dist_convex_lt (x y t1 t2 t3 : ℚ) (h12 : t1 ≤ t2) (h23 : t2 ≤ t3)
    (ha : |x - t1| < |y - t1|) (hc : |x - t3| < |y - t3|) :
    |x - t2| < |y - t2| := by
  rw [abs_lt_abs_iff_sq] at ha hc ⊢
  rcases le_total x y with hxy | hxy
  · nlinarith [mul_nonneg (sub_nonneg.mpr hxy) (sub_nonneg.mpr h23)]
  · nlinarith [mul_nonneg (sub_nonneg.mpr hxy) (sub_nonneg.mpr h12)]

theorem dists_length (time : List ℚ) (t : ℚ) :
    (dists time t).length = time.length := by
  simp [dists]

theorem dists_ne_nil (time : List ℚ) (t : ℚ) (h : time ≠ []) :
    dists time t ≠ [] := by
  intro hc
  exact h (by simpa [dists] using hc)

theorem dists_getD (time : List ℚ) (t : ℚ) (k : ℕ) (hk : k < time.length) :
    (dists time t).getD k 0 = |time.getD k 0 - t| := by
  unfold dists
  rw [List.getD_eq_getElem?_getD, List.getElem?_map,
    List.getElem?_eq_getElem hk, List.getD_eq_getElem?_getD,
    List.getElem?_eq_getElem hk]
  rfl

theorem argminIdx_dists_convex (time : List ℚ) (hne : time ≠ [])
    (t1 t2 t3 : ℚ) (h12 : t1 ≤ t2) (h23 : t2 ≤ t3) (j : ℕ)
    (hj1 : argminIdx (dists time t1) = j)
    (hj3 : argminIdx (dists time t3) = j) :
    argminIdx (dists time t2) = j := by
  obtain ⟨hlt1, hmin1, hfirst1⟩ := argminIdx_spec _ (dists_ne_nil time t1 hne)
  obtain ⟨hlt3, hmin3, hfirst3⟩ := argminIdx_spec _ (dists_ne_nil time t3 hne)
  rw [hj1] at hlt1 hmin1 hfirst1
  rw [hj3] at hlt3 hmin3 hfirst3
  rw [dists_length] at hlt1 hlt3
  have hjt : j < time.length := hlt1
  refine argminIdx_eq_of _ j (by rwa [dists_length]) ?_ ?_
  · intro k hk
    rw [dists_length] at hk
    rw [dists_getD time t2 k hk, dists_getD time t2 j hjt]
    have h1 := hmin1 k (by rwa [dists_length])
    have h3 := hmin3 k (by rwa [dists_length])
    rw [dists_getD time t1 k hk, dists_getD time t1 j hjt] at h1
    rw [dists_getD time t3 k hk, dists_getD time t3 j hjt] at h3
    exact abs_dist_convex _ _ _ _ _ h12 h23 h1 h3
  · intro k hk
    have hkt : k < time.length := lt_trans hk hjt
    rw [dists_getD time t2 k hkt, dists_getD time t2 j hjt]
    have h1 := hfirst1 k hk
    have h3 := hfirst3 k hk
    rw [dists_getD time t1 k hkt, dists_getD time t1 j hjt] at h1
    rw [dists_getD time t3 k hkt, dists_getD time t3 j hjt] at h3
    exact abs_dist_convex_lt _ _ _ _ _ h12 h23 h1 h3

/-- A selected pair (slot, index) is valid: the index is the first-nearest
index for the slot's target time and its distance is below 1. -/
def slotOK (time : List ℚ) (every : ℚ) (p : ℤ × ℕ) : Prop :=
  argminIdx (dists time ((p.1 : ℚ) * every)) = p.2 ∧
  (dists time ((p.1 : ℚ) * every)).getD p.2 0 < 1

/-- Invariant of the slot loop of `get_nearest_indices`: the selections so
far, with their slots, are strictly slot-increasing, below the current slot,
valid, coherent with `last_j`, and have pairwise distinct indices. -/
structure GniInv (time : List ℚ) (every : ℚ) (i : ℤ) (lastj : ℤ)
    (sel : List (ℤ × ℕ)) : Prop where
  pw : sel.Pairwise (fun a b => a.1 < b.1)
  bound : ∀ p ∈ sel, p.1 < i
  ok : ∀ p ∈ sel, slotOK time every p
  last : sel.getLast?.elim (lastj = -1) (fun q => lastj = (q.2 : ℤ))
  nd : (sel.map Prod.snd).Nodup

/-- The no-reselection argument: because the first-nearest index, as a
function of the target time, takes each value on a contiguous interval of
targets, a frame already selected at an earlier slot and distinct from the
most recent selection cannot be first-nearest again at the current slot. -/
theorem gni_no_reselect (time : List ℚ) (every : ℚ) (hne : time ≠ [])
    (he : 0 < every) (i lastj : ℤ) (sel : List (ℤ × ℕ))
    (hinv : GniInv time every i lastj sel)
    (hlj : (argminIdx (dists time ((i : ℚ) * every)) : ℤ) ≠ lastj) :
    argminIdx (dists time ((i : ℚ) * every)) ∉ sel.map Prod.snd := by
  intro ha
  obtain ⟨p, hp, hpj⟩ := List.mem_map.mp ha
  have hselne : sel ≠ [] := by
    intro hc
    rw [hc] at hp
    cases hp
  obtain ⟨l2, q, hdec⟩ : ∃ l2 q, sel = l2 ++ [q] :=
    ⟨sel.dropLast, sel.getLast hselne,
      (List.dropLast_append_getLast hselne).symm⟩
  have hqmem : q ∈ sel := by
    rw [hdec]
    exact List.mem_append_right _ (List.mem_singleton_self _)
  have hlast : lastj = (q.2 : ℤ) := by
    have h := hinv.last
    rw [hdec, List.getLast?_concat] at h
    exact h
  have hpq : p.2 ≠ q.2 := by
    intro hc
    apply hlj
    rw [hlast, ← hc, hpj]
  have hpl2 : p ∈ l2 := by
    rw [hdec] at hp
    rcases List.mem_append.mp hp with h | h
    · exact h
    · exact absurd (congrArg Prod.snd (List.mem_singleton.mp h)) hpq
  have hpwq : p.1 < q.1 := by
    have h := hinv.pw
    rw [hdec, List.pairwise_append] at h
    exact h.2.2 p hpl2 q (List.mem_singleton_self _)
  have hqi : q.1 < i := hinv.bound q hqmem
  have hokp := hinv.ok p hp
  have hokq := hinv.ok q hqmem
  have h1 : ((p.1 : ℚ) * every) ≤ ((q.1 : ℚ) * every) :=
    mul_le_mul_of_nonneg_right (by exact_mod_cast hpwq.le) he.le
  have h2 : ((q.1 : ℚ) * every) ≤ ((i : ℚ) * every) :=
    mul_le_mul_of_nonneg_right (by exact_mod_cast hqi.le) he.le
  have hconv := argminIdx_dists_convex time hne _ _ _ h1 h2
    (argminIdx (dists time ((i : ℚ) * every))) (hokp.1.trans hpj) rfl
  rw [hokq.1] at hconv
  exact hpq (hpj ▸ hconv.symm)

theorem gniLoop_inv (time : List ℚ) (every : ℚ) (hne : time ≠ [])
    (he : 0 < every) :
    ∀ k (i lastj : ℤ) (sel : List (ℤ × ℕ)), GniInv time every i lastj sel →
      ∃ sel2 lastj2,
        gniLoop time every k i lastj (sel.map Prod.snd) = sel2.map Prod.snd ∧
        GniInv time every (i + k) lastj2 sel2 := by
  intro k
  induction k with
  | zero =>
    intro i lastj sel hinv
    exact ⟨sel, lastj, rfl, by simpa using hinv⟩
  | succ k ih =>
    intro i lastj sel hinv
    rw [gniLoop]
    split
    · next hguard =>
      obtain ⟨hdist, hlj⟩ := hguard
      have hmapapp : sel.map Prod.snd ++ [argminIdx (dists time ((i : ℚ) * every))]
          = (sel ++ [(i, argminIdx (dists time ((i : ℚ) * every)))]).map Prod.snd := by
        simp
      rw [hmapapp]
      have hinv2 : GniInv time every (i + 1) (argminIdx (dists time ((i : ℚ) * every)))
          (sel ++ [(i, argminIdx (dists time ((i : ℚ) * every)))]) := by
        constructor
        · rw [List.pairwise_append]
          exact ⟨hinv.pw, List.pairwise_singleton _ _,
            fun a ha b hb => by
              rw [List.mem_singleton.mp hb]
              exact hinv.bound a ha⟩
        · intro p hp
          rcases List.mem_append.mp hp with h | h
          · exact lt_trans (hinv.bound p h) (by omega)
          · rw [List.mem_singleton.mp h]
            omega
        · intro p hp
          rcases List.mem_append.mp hp with h | h
          · exact hinv.ok p h
          · rw [List.mem_singleton.mp h]
            exact ⟨rfl, hdist⟩
        · rw [List.getLast?_concat]
          rfl
        · rw [List.map_append, List.nodup_append]
          refine ⟨hinv.nd, List.nodup_singleton _, ?_⟩
          intro a ha hb
          simp only [List.map_cons, List.map_nil, List.mem_singleton] at hb
          subst hb
          exact gni_no_reselect time every hne he i lastj sel hinv hlj ha
      obtain ⟨sel2, lastj2, heq, hinv3⟩ := ih (i + 1) _ _ hinv2
      refine ⟨sel2, lastj2, heq, ?_⟩
      have : i + (k + 1 : ℕ) = (i + 1) + k := by push_cast; ring
      rwa [this]
    · obtain ⟨sel2, lastj2, heq, hinv3⟩ := ih (i + 1) lastj sel
        ⟨hinv.pw, fun p hp => lt_trans (hinv.bound p hp) (by omega), hinv.ok,
         hinv.last, hinv.nd⟩
      refine ⟨sel2, lastj2, heq, ?_⟩
      have : i + (k + 1 : ℕ) = (i + 1) + k := by push_cast; ring
      rwa [this]

/-! ### Structure of the corrected per-segment time arrays -/

instance : Inhabited Segment := ⟨⟨"", [], none⟩⟩

theorem pairwise_pySlice (xs : List ℚ) (a b : ℕ)
    (h : xs.Pairwise (· < ·)) : (pySlice xs a b).Pairwise (· < ·) :=
  h.sublist ((List.drop_sublist a (xs.take b)).trans (List.take_sublist b xs))

theorem pairwise_fix_time (t : List ℚ) (h : t.Pairwise (· < ·)) :
    (fix_time t).Pairwise (· < ·) := by
  unfold fix_time
  split
  · next t0 t1 t2 rest =>
    split
    · next hcond =>
      have htail := (List.pairwise_cons.mp h).2
      have h12 : t1 < t2 := (List.pairwise_cons.mp htail).1 t2 (by simp)
      rw [List.pairwise_cons]
      refine ⟨?_, htail⟩
      intro y hy
      rcases List.mem_cons.mp hy with rfl | hy2
      · linarith
      · have : t1 < y := (List.pairwise_cons.mp htail).1 y hy2
        linarith
    · exact h
  · exact h

theorem pairwise_applyOffset (o : Option ℚ) (t : List ℚ)
    (h : t.Pairwise (· < ·)) : (applyOffset o t).Pairwise (· < ·) := by
  cases o with
  | none => exact h
  | some lt =>
    unfold applyOffset
    rw [List.pairwise_map]
    exact h.imp (fun hab => by linarith)

theorem stepMiddle_time_pairwise (tol : NVal) (st : SeqState)
    (seg1 seg2 : Segment) (rec : SegRecord) (st2 : SeqState)
    (h : stepMiddle tol st seg1 seg2 = .ok (rec, st2))
    (ht : (timeArr seg1).Pairwise (· < ·)) :
    rec.time.Pairwise (· < ·) := by
  simp only [stepMiddle] at h
  split at h
  · exact absurd h (by simp)
  · injection h with h
    injection h with h1 h2
    rw [← h1]
    exact pairwise_applyOffset _ _ (pairwise_fix_time _ (pairwise_pySlice _ _ _ ht))

theorem stepFinal_time_pairwise (st : SeqState) (seg : Segment)
    (ht : (timeArr seg).Pairwise (· < ·)) :
    (stepFinal st seg).time.Pairwise (· < ·) :=
  pairwise_applyOffset _ _ (pairwise_fix_time _ ht)

theorem openTrajsAux_time_pairwise (tol : NVal) :
    ∀ (segs : List Segment) (st : SeqState) (seg : Segment)
      (recs : List SegRecord),
      openTrajsAux tol st seg segs = .ok recs →
      (timeArr seg).Pairwise (· < ·) →
      (∀ s ∈ segs, (timeArr s).Pairwise (· < ·)) →
      ∀ r ∈ recs, r.time.Pairwise (· < ·) := by
  intro segs
  induction segs with
  | nil =>
    intro st seg recs h h1 _ r hr
    injection h with h
    rw [← h] at hr
    rw [List.mem_singleton.mp hr]
    exact stepFinal_time_pairwise st seg h1
  | cons seg2 rest ih =>
    intro st seg recs h h1 h2 r hr
    rw [openTrajsAux] at h
    cases hm : stepMiddle tol st seg seg2 with
    | error e => rw [hm] at h; exact absurd h (by simp)
    | ok p =>
      obtain ⟨rec2, st2⟩ := p
      rw [hm] at h
      simp only [] at h
      cases ha : openTrajsAux tol st2 seg2 rest with
      | error e => rw [ha] at h; exact absurd h (by simp)
      | ok recs2 =>
        rw [ha] at h
        simp only [] at h
        injection h with h
        rw [← h] at hr
        rcases List.mem_cons.mp hr with rfl | hr2
        · exact stepMiddle_time_pairwise tol st seg seg2 r st2
            (by rw [hm]) h1
        · exact ih st2 seg2 recs2 ha (h2 seg2 (by simp))
            (fun s hs => h2 s (List.mem_cons_of_mem _ hs)) r hr2

theorem pyNeg_one_eq_getLastD (xs : List ℚ) :
    pyNeg xs 1 = xs.getLastD 0 := by
  unfold pyNeg
  cases xs with
  | nil => rfl
  | cons x rest =>
    rw [List.getLastD_eq_getLast?, List.getLast?_eq_getElem?,
      List.getD_eq_getElem?_getD]

theorem applyOffset_headD (lt : ℚ) (t : List ℚ) (h : t ≠ []) :
    (applyOffset (some lt) t).headD 0 = lt := by
  cases t with
  | nil => exact absurd rfl h
  | cons a rest =>
    unfold applyOffset
    simp only [List.map_cons, List.headD_cons, List.headD_cons]
    ring

theorem applyOffset_ne_nil (o : Option ℚ) (t : List ℚ) (h : t ≠ []) :
    applyOffset o t ≠ [] := by
  cases o with
  | none => exact h
  | some lt =>
    unfold applyOffset
    simpa using h

theorem stepMiddle_headD (tol : NVal) (st : SeqState) (seg1 seg2 : Segment)
    (rec : SegRecord) (st2 : SeqState) (lt : ℚ)
    (h : stepMiddle tol st seg1 seg2 = .ok (rec, st2))
    (hlt : st.lastTime = some lt) (hne : rec.time ≠ []) :
    rec.time.headD 0 = lt := by
  simp only [stepMiddle] at h
  split at h
  · exact absurd h (by simp)
  · injection h with h
    injection h with h1 h2
    have ht : fix_time (pySlice (timeArr seg1) st.first1
        (findOverlap seg1 seg2 tol).last1.toNat) ≠ [] := by
      intro hc
      apply hne
      rw [← h1, hlt, hc]
      rfl
    rw [← h1, hlt]
    exact applyOffset_headD lt _ ht

theorem stepFinal_headD (st : SeqState) (seg : Segment) (lt : ℚ)
    (hlt : st.lastTime = some lt) (hne : (stepFinal st seg).time ≠ []) :
    (stepFinal st seg).time.headD 0 = lt := by
  have ht : fix_time (timeArr seg) ≠ [] := by
    intro hc
    apply hne
    show applyOffset st.lastTime (fix_time (timeArr seg)) = []
    rw [hlt, hc]
    rfl
  show (applyOffset st.lastTime (fix_time (timeArr seg))).headD 0 = lt
  rw [hlt]
  exact applyOffset_headD lt _ ht

theorem stepMiddle_lastTime_of_normal (tol : NVal) (st : SeqState)
    (seg1 seg2 : Segment) (rec : SegRecord) (st2 : SeqState)
    (h : stepMiddle tol st seg1 seg2 = .ok (rec, st2))
    (hnormal : rec.stop < (timeArr seg1).length) :
    st2.lastTime = some (rec.time.getLastD 0) := by
  simp only [stepMiddle] at h
  split at h
  · exact absurd h (by simp)
  · next hlast =>
    injection h with h
    injection h with h1 h2
    rw [← h1] at hnormal
    simp only at hnormal
    have hcond : ¬ ((timeArr seg1).length : ℤ) ≤ (findOverlap seg1 seg2 tol).last1 := by
      omega
    rw [← h2, ← h1]
    simp only [if_neg hcond]
    rw [pyNeg_one_eq_getLastD]

theorem openTrajsAux_joins (tol : NVal) :
    ∀ (segs : List Segment) (st : SeqState) (seg : Segment)
      (recs : List SegRecord),
      openTrajsAux tol st seg segs = .ok recs →
      recs.length = segs.length + 1 ∧
      (∀ lt, st.lastTime = some lt → (recs.getD 0 default).time ≠ [] →
        (recs.getD 0 default).time.headD 0 = lt) ∧
      (∀ k, k + 1 < recs.length →
        (recs.getD k default).stop
          < (timeArr ((seg :: segs).getD k default)).length →
        (recs.getD (k + 1) default).time ≠ [] →
        (recs.getD (k + 1) default).time.headD 0
          = (recs.getD k default).time.getLastD 0) := by
  intro segs
  induction segs with
  | nil =>
    intro st seg recs h
    injection h with h
    refine ⟨by rw [← h]; rfl, ?_, ?_⟩
    · intro lt hlt hne
      rw [← h] at hne ⊢
      exact stepFinal_headD st seg lt hlt hne
    · intro k hk
      rw [← h] at hk
      simp at hk
  | cons seg2 rest ih =>
    intro st seg recs h
    rw [openTrajsAux] at h
    cases hm : stepMiddle tol st seg seg2 with
    | error e => rw [hm] at h; exact absurd h (by simp)
    | ok p =>
      obtain ⟨rec2, st2⟩ := p
      rw [hm] at h
      simp only [] at h
      cases ha : openTrajsAux tol st2 seg2 rest with
      | error e => rw [ha] at h; exact absurd h (by simp)
      | ok recs2 =>
        rw [ha] at h
        simp only [] at h
        injection h with h
        obtain ⟨ihlen, ihhead, ihjoins⟩ := ih st2 seg2 recs2 ha
        refine ⟨?_, ?_, ?_⟩
        · rw [← h]
          simp [ihlen]
        · intro lt hlt hne
          rw [← h] at hne ⊢
          exact stepMiddle_headD tol st seg seg2 rec2 st2 lt hm hlt hne
        · intro k hk hnorm hne
          rw [← h] at hk hnorm hne ⊢
          cases k with
          | zero =>
            simp only [List.getD_cons_zero, List.getD_cons_succ] at hnorm hne ⊢
            have hlt2 := stepMiddle_lastTime_of_normal tol st seg seg2 rec2 st2
              hm hnorm
            exact ihhead (rec2.time.getLastD 0) hlt2 hne
          | succ k =>
            simp only [List.getD_cons_succ] at hnorm hne ⊢
            exact ihjoins k (by simp at hk; omega) hnorm hne

/-! ### Claim theorems -/

/-- C6: every index selected by `get_nearest_indices` is, for some target
slot `k*every`, the first-nearest frame to that target, with distance
strictly below 1.0 (slots with no such frame contribute nothing), and no
frame index is selected for more than one slot. -/
theorem resampler_nearest_below_one_nodup (time : List ℚ) (every : ℚ)
    (hne : time ≠ []) (he : 0 < every) :
    (∀ j ∈ get_nearest_indices time every, j < time.length ∧
      ∃ k : ℤ, |time.getD j 0 - (k : ℚ) * every| < 1 ∧
        ∀ l, l < time.length →
          |time.getD j 0 - (k : ℚ) * every| ≤ |time.getD l 0 - (k : ℚ) * every|) ∧
    (get_nearest_indices time every).Nodup := by
  obtain ⟨sel2, lastj2, heq, hinv⟩ := gniLoop_inv time every hne he
    (pyInt (maximumQ time / every) + 1 - pyInt (minimumQ time / every)).toNat
    (pyInt (minimumQ time / every)) (-1) []
    ⟨List.Pairwise.nil, by simp, by simp, rfl, List.nodup_nil⟩
  simp only [List.map_nil] at heq
  have hres : get_nearest_indices time every = sel2.map Prod.snd := by
    rw [get_nearest_indices]
    exact heq
  rw [hres]
  constructor
  · intro j hj
    obtain ⟨p, hp, hpj⟩ := List.mem_map.mp hj
    obtain ⟨hargmin, hdist⟩ := hinv.ok p hp
    obtain ⟨hlt, hmin, _⟩ :=
      argminIdx_spec (dists time ((p.1 : ℚ) * every)) (dists_ne_nil _ _ hne)
    rw [hargmin] at hlt hmin
    rw [hpj] at hlt hmin hdist
    rw [dists_length] at hlt
    refine ⟨hlt, p.1, ?_, ?_⟩
    · rw [dists_getD _ _ j hlt] at hdist
      exact hdist
    · intro l hl
      have h := hmin l (by rwa [dists_length])
      rw [dists_getD _ _ j hlt, dists_getD _ _ l hl] at h
      exact h
  · exact hinv.nd

unseal Rat.add Rat.sub Rat.mul Rat.inv in
/-- Witness for C6 on the concrete timeline `[0, 1, 2, 3]` with interval
2. -/
theorem resampler_nearest_below_one_nodup_witness :
    (∀ j ∈ get_nearest_indices [0, 1, 2, 3] 2, j < 4 ∧
      ∃ k : ℤ, |([0, 1, 2, 3] : List ℚ).getD j 0 - (k : ℚ) * 2| < 1 ∧
        ∀ l, l < 4 →
          |([0, 1, 2, 3] : List ℚ).getD j 0 - (k : ℚ) * 2|
            ≤ |([0, 1, 2, 3] : List ℚ).getD l 0 - (k : ℚ) * 2|) ∧
    (get_nearest_indices [0, 1, 2, 3] 2).Nodup := by
  have h := resampler_nearest_below_one_nodup [0, 1, 2, 3] 2 (by decide)
    (by decide)
  exact ⟨fun j hj => h.1 j hj, h.2⟩


/-- C5: for an adjacent non-trusted pair in which no frame of A matches any
searched candidate frame of B within the (scalar) tolerance `t`, the pair
step fails with the Inconsistent-Segment-Order error naming the two files,
and the reported residuals are exactly the minimum and the maximum of the
residuals observed over all searched pairs (every frame `i` of A against
every candidate `j` among the first `min(len(B), 6)` frames of B). -/
theorem inconsistent_order_error_reports_extrema (st : SeqState)
    (seg1 seg2 : Segment) (t : ℚ)
    (htr : isTrusted seg2.name = false)
    (h1 : 1 ≤ seg1.test.length) (h2 : 1 ≤ seg2.test.length)
    (ht : 0 ≤ t)
    (hall : ∀ j, j < min seg2.test.length 6 → ∀ i, i < seg1.test.length →
      t < resid seg1.test seg2.test i j)
    (hbound : ∀ j, j < min seg2.test.length 6 → ∀ i, i < seg1.test.length →
      resid seg1.test seg2.test i j < t + 10 ^ 12) :
    ∃ m M : ℚ,
      stepMiddle (.s t) st seg1 seg2
        = .error ⟨seg1.name, seg2.name, .s m, .s M⟩ ∧
      (∃ i j, i < seg1.test.length ∧ j < min seg2.test.length 6 ∧
        m = resid seg1.test seg2.test i j) ∧
      (∀ i j, i < seg1.test.length → j < min seg2.test.length 6 →
        m ≤ resid seg1.test seg2.test i j) ∧
      (∃ i j, i < seg1.test.length ∧ j < min seg2.test.length 6 ∧
        M = resid seg1.test seg2.test i j) ∧
      (∀ i j, i < seg1.test.length → j < min seg2.test.length 6 →
        resid seg1.test seg2.test i j ≤ M) := by
  have hC : 1 ≤ min seg2.test.length 6 := by omega
  have houter := outerScan_exhausts seg1.test seg2.test t h1 h2 hall
    (min seg2.test.length 6) le_rfl 8 (by omega) 0 (t + 1) (t + 10 ^ 12) 0
    (by linarith)
  simp only [Nat.sub_self, Nat.cast_zero, zero_sub] at houter
  rw [if_neg (by omega)] at houter
  refine ⟨candsMin seg1.test seg2.test 0 (min seg2.test.length 6) (t + 10 ^ 12),
    candsMax seg1.test seg2.test 0 (min seg2.test.length 6) 0, ?_, ?_, ?_, ?_, ?_⟩
  · unfold stepMiddle findOverlap
    rw [htr]
    simp only [Bool.false_eq_true, if_false]
    unfold searchOverlap
    rw [show (NVal.s t).addC 1 = NVal.s (t + 1) from rfl,
      show (NVal.s t).addC (10 ^ 12) = NVal.s (t + 10 ^ 12) from rfl,
      show (NVal.s t).zerosLike = NVal.s 0 from rfl]
    rw [houter]
    rfl
  · rcases candsMin_cases seg1.test seg2.test h1 (min seg2.test.length 6)
        0 (t + 10 ^ 12) with h | ⟨j2, i, _, hlt, hi, h⟩
    · exfalso
      have hle := candsMin_le seg1.test seg2.test (min seg2.test.length 6)
        0 (t + 10 ^ 12) 0 (by omega) (by omega) 0 (by omega)
      rw [h] at hle
      exact absurd (lt_of_le_of_lt hle (hbound 0 hC 0 h1)) (lt_irrefl _)
    · exact ⟨i, j2, hi, by omega, h⟩
  · intro i j hi hj
    exact candsMin_le seg1.test seg2.test (min seg2.test.length 6) 0
      (t + 10 ^ 12) j (by omega) (by omega) i hi
  · rcases candsMax_cases seg1.test seg2.test h1 (min seg2.test.length 6)
        0 0 with h | ⟨j2, i, _, hlt, hi, h⟩
    · exfalso
      have hge := candsMax_ge seg1.test seg2.test (min seg2.test.length 6)
        0 0 0 (by omega) (by omega) 0 (by omega)
      rw [h] at hge
      exact absurd (lt_of_le_of_lt hge (lt_of_le_of_lt ht (hall 0 hC 0 h1)))
        (lt_irrefl _)
    · exact ⟨i, j2, hi, by omega, h⟩
  · intro i j hi hj
    exact candsMax_ge seg1.test seg2.test (min seg2.test.length 6) 0 0 j
      (by omega) (by omega) i hi

unseal Rat.add Rat.sub Rat.mul Rat.inv in
/-- Witness for C5 at a concrete non-matching pair (tolerance 1, one frame
each, residual 5). -/
theorem inconsistent_order_error_reports_extrema_witness :
    ∃ m M : ℚ,
      stepMiddle (.s 1) ⟨none, 0⟩ ⟨"a", [[0]], some [0]⟩ ⟨"b", [[5]], some [1]⟩
        = .error ⟨"a", "b", .s m, .s M⟩ ∧
      (∃ i j, i < 1 ∧ j < min 1 6 ∧ m = resid [[0]] [[5]] i j) ∧
      (∀ i j, i < 1 → j < min 1 6 → m ≤ resid [[0]] [[5]] i j) ∧
      (∃ i j, i < 1 ∧ j < min 1 6 ∧ M = resid [[0]] [[5]] i j) ∧
      (∀ i j, i < 1 → j < min 1 6 → resid [[0]] [[5]] i j ≤ M) :=
  inconsistent_order_error_reports_extrema ⟨none, 0⟩ ⟨"a", [[0]], some [0]⟩
    ⟨"b", [[5]], some [1]⟩ 1 (by decide) (by decide) (by decide) (by decide)
    (by decide) (by decide)


/-- C7: when a persistent-identifier variable is present and the variable's
second dimension is the particle axis, the reordering of one copied frame
sends input row `i` to output row `ids[i] + offset`: provided every target
`ids[i] + offset` is a valid zero-based row index and the identifiers are
distinct, the reordered frame holds input row `i` at output row
`(ids[i] + offset)` for every `i` (in particular, with identifiers
`[3, 1, 2]` and offset `-1`, input rows 0, 1, 2 land at output rows
2, 0, 1 — see the witness). -/
theorem reorder_sends_row_to_id_plus_offset (ids : List ℤ) (off : ℤ)
    (rows : List Row)
    (hrange : ∀ i, i < rows.length →
      0 ≤ ids.getD i 0 + off ∧ (ids.getD i 0 + off).toNat < rows.length)
    (hinj : ∀ i, i < rows.length → ∀ j, j < rows.length → i ≠ j →
      ids.getD i 0 ≠ ids.getD j 0) :
    ∀ i, i < rows.length →
      (reorderRows ids off rows).getD (ids.getD i 0 + off).toNat []
        = rows.getD i [] := by
  intro i hi
  unfold reorderRows
  exact writeRows_getD_mem ids off rows (List.range rows.length)
    (zerosLikeRows rows) i (zerosLikeRows_length rows) (hrange i hi).2
    (fun j hj => (hrange j (List.mem_range.mp hj)).1)
    (fun j hj hne => by
      have := hinj j (List.mem_range.mp hj) i hi hne
      omega)
    (List.nodup_range _) (List.mem_range.mpr hi)

/-- Witness for C7 at the example of the claim: identifiers `[3, 1, 2]`
with offset `-1`; input rows `[10]`, `[20]`, `[30]` land at output rows
2, 0 and 1 respectively. -/
theorem reorder_sends_row_to_id_plus_offset_witness :
    (reorderRows [3, 1, 2] (-1) [[10], [20], [30]]).getD 2 [] = [10] ∧
    (reorderRows [3, 1, 2] (-1) [[10], [20], [30]]).getD 0 [] = [20] ∧
    (reorderRows [3, 1, 2] (-1) [[10], [20], [30]]).getD 1 [] = [30] := by
  have h := reorder_sends_row_to_id_plus_offset [3, 1, 2] (-1) [[10], [20], [30]]
    (by decide) (by decide)
  exact ⟨h 0 (by decide), h 1 (by decide), h 2 (by decide)⟩


/-- C2: for every adjacent pair (A, B) where B carries the trusted-segment
marker (`+` name prefix), the overlap search is skipped: the sequencer step
succeeds with `first2 = 0` (the next segment starts at its frame 0) and
`last1` equal to A's full frame count, so A's record extends through its
last frame and no frame of A is removed as overlap. -/
theorem trusted_segment_skips_overlap (tol : NVal) (st : SeqState)
    (seg1 seg2 : Segment) (h : isTrusted seg2.name = true) :
    ∃ rec st2, stepMiddle tol st seg1 seg2 = .ok (rec, st2) ∧
      st2.first1 = 0 ∧ rec.start = st.first1 ∧ rec.stop = seg1.test.length := by
  unfold stepMiddle findOverlap
  rw [h]
  simp only [if_true]
  rw [if_neg (by exact not_lt.mpr (Int.natCast_nonneg _))]
  exact ⟨_, _, rfl, by simp, rfl, by simp⟩

/-- Witness for C2 at a concrete trusted pair. -/
theorem trusted_segment_skips_overlap_witness :
    ∃ rec st2,
      stepMiddle (.s 1) ⟨none, 0⟩ ⟨"a", [[1]], some [0]⟩ ⟨"+b", [[2]], some [1]⟩
        = .ok (rec, st2) ∧
      st2.first1 = 0 ∧ rec.start = 0 ∧ rec.stop = 1 :=
  trusted_segment_skips_overlap (.s 1) ⟨none, 0⟩ ⟨"a", [[1]], some [0]⟩
    ⟨"+b", [[2]], some [1]⟩ (by decide)

/-- C9: the copy loop's cursor after all segments equals the sum over all
segments of the length of that segment's corrected-time array, and the
cursor value at which each segment's frames start being written equals the
sum of the time-array lengths of all earlier segments. -/
theorem cursor_accumulates_time_lengths (recs : List SegRecord) :
    copyRun 0 recs = (recs.map (fun r => r.time.length)).sum ∧
    ∀ k, k < recs.length →
      (copyTrace 0 recs).getD k 0 =
        ((recs.take k).map (fun r => r.time.length)).sum := by
  constructor
  · simpa using copyRun_eq 0 recs
  · intro k hk
    simpa using copyTrace_getD 0 recs k hk

/-- Witness for C9 at a concrete two-record run. -/
theorem cursor_accumulates_time_lengths_witness :
    copyRun 0 [⟨"a", 0, 2, [0, 1]⟩, ⟨"b", 0, 2, [1, 2]⟩]
      = ([⟨"a", 0, 2, [0, 1]⟩, ⟨"b", 0, 2, [1, 2]⟩].map
          (fun r : SegRecord => r.time.length)).sum ∧
    (copyTrace 0 [⟨"a", 0, 2, [0, 1]⟩, ⟨"b", 0, 2, [1, 2]⟩]).getD 1 0
      = (([⟨"a", 0, 2, [0, 1]⟩, ⟨"b", 0, 2, [1, 2]⟩].take 1).map
          (fun r : SegRecord => r.time.length)).sum :=
  ⟨(cursor_accumulates_time_lengths _).1,
   (cursor_accumulates_time_lengths _).2 1 (by decide)⟩

/-- C10: the persistent-identifier variable name is always a member of the
exclude set — also when the user supplies no explicit exclude list — and is
therefore never among the variables processed by the creation loop or the
copy loop. -/
theorem index_always_excluded (index : String) (exclude : Option String)
    (vars : List String) :
    index ∈ exclude_list index exclude ∧
      index ∉ processedVars vars index exclude := by
  have hmem : index ∈ exclude_list index exclude := by
    cases exclude <;> simp [exclude_list]
  refine ⟨hmem, fun hc => ?_⟩
  have h2 := (List.mem_filter.mp hc).2
  have h3 : (exclude_list index exclude).contains index = true :=
    List.elem_eq_true_of_mem hmem
  rw [h3] at h2
  exact absurd h2 (by decide)

/-- C8 (code evaluation): the per-file consistency test detects a
difference between the previous and current segment's same-named variable
(driving the run into the error branch of lines 396-399), and stays quiet
on identical contents. -/
theorem per_file_mismatch_detected :
    perFileDiffers [1, 2] [1, 3] = true ∧ perFileDiffers [1, 2] [1, 2] = false := by
  decide

unseal Rat.add Rat.sub Rat.mul Rat.inv in
/-- C1 (code evaluation at the failing input): with the per-element
tolerance `[10, 1]`, frame 0 of segment A and frame 0 of segment B are
within tolerance elementwise — the code's own comparison
`np.any(maxdiff > test_tol)` on their elementwise difference is false — yet
the overlap search misses this pair (the backward scan collapses the
difference to its scalar maximum) and the pair step raises the
not-consecutive error instead of declaring the match at
`(first2, last1) = (0, 0)`. -/
theorem vector_tolerance_match_missed :
    NVal.anyGt (absDiff [5, 1/2] [0, 0]) (.v [10, 1]) = false ∧
    stepMiddle (.v [10, 1]) ⟨none, 0⟩
        ⟨"a", [[5, 1/2], [1000, 1000]], some [0, 1]⟩ ⟨"b", [[0, 0]], some [2]⟩
      = .error ⟨"a", "b", .v [5, 5], .v [1000, 1000]⟩ := by
  decide

unseal Rat.add Rat.sub Rat.mul Rat.inv in
/-- C3 (counterexample): a two-segment run on the overlap path with
`first2 = 1` in which the final segment's first retained corrected time
(index `first2` of its corrected time array) differs from the previous
segment's last retained corrected time: the final segment's offset is
anchored at its frame 0, not at frame `first2`. -/
theorem join_continuity_counterexample :
    ∃ recA recB,
      open_trajs (.s (1/1000000))
          [⟨"a", [[10], [20]], some [0, 1]⟩, ⟨"b", [[15], [20], [25]], some [1, 2, 3]⟩]
        = .ok [recA, recB] ∧
      recB.time.getD recB.start 0 ≠ recA.time.getLastD 0 :=
  ⟨⟨"a", 0, 1, [0]⟩, ⟨"b", 1, 3, [0, 1, 2]⟩, by decide, by decide⟩

unseal Rat.add Rat.sub Rat.mul Rat.inv in
/-- C4 (counterexample): a two-segment run whose declared per-segment time
values are strictly increasing but whose corrected timeline `[0, 1, 1, 2]`
repeats the value at the join (the next segment's first corrected time
equals the previous segment's last retained corrected time by
construction), hence is not strictly increasing. -/
theorem timeline_not_strictly_increasing :
    List.Pairwise (· < ·) [(0 : ℚ), 1, 2] ∧ List.Pairwise (· < ·) [(2 : ℚ), 3] ∧
    timelineOf (open_trajs (.s (1/1000000))
        [⟨"a", [[10], [20], [30]], some [0, 1, 2]⟩, ⟨"b", [[30], [40]], some [2, 3]⟩])
      = [0, 1, 1, 2] ∧
    ¬ List.Pairwise (· < ·)
        (timelineOf (open_trajs (.s (1/1000000))
          [⟨"a", [[10], [20], [30]], some [0, 1, 2]⟩, ⟨"b", [[30], [40]], some [2, 3]⟩])) := by
  decide

unseal Rat.add Rat.sub Rat.mul Rat.inv in
/-- C4 (amended): whenever every segment's own declared time values are
strictly increasing, each per-segment corrected time array produced by the
sequencer is strictly increasing; the concatenated corrected timeline is
only nondecreasing, with equal adjacent timestamps at overlap joins (see
the counterexample), not strictly increasing. -/
theorem corrected_times_strictly_increasing_per_record (tol : NVal)
    (segs : List Segment) (recs : List SegRecord)
    (h : open_trajs tol segs = .ok recs)
    (hts : ∀ s ∈ segs, (timeArr s).Pairwise (· < ·)) :
    ∀ r ∈ recs, r.time.Pairwise (· < ·) := by
  cases segs with
  | nil =>
    injection h with h
    intro r hr
    rw [← h] at hr
    cases hr
  | cons s rest =>
    exact openTrajsAux_time_pairwise tol rest ⟨none, 0⟩ s recs h
      (hts s (by simp)) (fun s2 hs2 => hts s2 (List.mem_cons_of_mem _ hs2))

unseal Rat.add Rat.sub Rat.mul Rat.inv in
/-- Witness for the amended C4 on a concrete two-segment run: the second
record of the run is strictly increasing. -/
theorem corrected_times_strictly_increasing_per_record_witness :
    (⟨"b", 0, 2, [1, 2]⟩ : SegRecord).time.Pairwise (· < ·) :=
  corrected_times_strictly_increasing_per_record (.s (1/1000000))
    [⟨"a", [[10], [20], [30]], some [0, 1, 2]⟩, ⟨"b", [[30], [40]], some [2, 3]⟩]
    [⟨"a", 0, 2, [0, 1]⟩, ⟨"b", 0, 2, [1, 2]⟩] (by decide) (by decide)
    ⟨"b", 0, 2, [1, 2]⟩ (by decide)

/-- C3 (amended): at every join point between consecutive records `k` and
`k+1` of a successful run where segment `k`'s retained range ends strictly
before the end of its time array (the overlap-removal path), the corrected
time array of record `k+1` starts exactly at record `k`'s last retained
corrected time.  (For middle records the time array is the retained slice,
so its first entry is the first retained corrected time; for the final
record the array is its full corrected time array, whose first entry is the
first retained corrected time exactly when its `first2` is 0.) -/
theorem join_continuity_on_overlap_path (tol : NVal) (segs : List Segment)
    (recs : List SegRecord) (h : open_trajs tol segs = .ok recs) (k : ℕ)
    (hk : k + 1 < recs.length)
    (hnormal : (recs.getD k default).stop
      < (timeArr (segs.getD k default)).length)
    (hne : (recs.getD (k + 1) default).time ≠ []) :
    (recs.getD (k + 1) default).time.headD 0
      = (recs.getD k default).time.getLastD 0 := by
  cases segs with
  | nil =>
    injection h with h
    rw [← h] at hk
    simp at hk
  | cons s rest =>
    obtain ⟨_, _, hjoins⟩ := openTrajsAux_joins tol rest ⟨none, 0⟩ s recs h
    exact hjoins k hk hnormal hne

unseal Rat.add Rat.sub Rat.mul Rat.inv in
/-- Witness for the amended C3 on a concrete two-segment run with an
overlap-path join. -/
theorem join_continuity_on_overlap_path_witness :
    (([(⟨"a", 0, 2, [0, 1]⟩ : SegRecord), ⟨"b", 0, 2, [1, 2]⟩].getD 1
        default).time.headD 0)
      = (([(⟨"a", 0, 2, [0, 1]⟩ : SegRecord), ⟨"b", 0, 2, [1, 2]⟩].getD 0
        default).time.getLastD 0) :=
  join_continuity_on_overlap_path (.s (1/1000000))
    [⟨"a", [[10], [20], [30]], some [0, 1, 2]⟩, ⟨"b", [[30], [40]], some [2, 3]⟩]
    [⟨"a", 0, 2, [0, 1]⟩, ⟨"b", 0, 2, [1, 2]⟩] (by decide) 0 (by decide)
    (by decide) (by decide)
